import Mathlib

/-!
Shallow embedding of the snippet reconciliation engine of
`src/assistant/diff_view.py`: the sequence-alignment merge, the
definition-region detection, the proposed-file computation, the
unified-diff sentinel of `open_diff`, and the pending-edit map with its
accept and reject protocol.  Text is a list of characters and a line is
a list of characters; the line terminator is modelled as the newline
character, the one occurring in the buffers this plugin handles.
-/

namespace DiffView

/-- Python whitespace characters, the set stripped by `str.lstrip` and
matched by the regex space class. -/
def pyIsSpace (c : Char) : Bool :=
  c = ' ' || c = '\t' || c = '\n' || c = '\r' || c = '\x0b' || c = '\x0c'

/-- Python word characters (regex `\w`), on the ASCII text this plugin
handles: alphanumerics and the underscore. -/
def isWordChar (c : Char) : Bool := c.isAlphanum || c = '_'

/-- A line of text; a Python string in the source. -/
abbrev Line := List Char

/-- Python `splitlines(keepends=True)`: each piece keeps its newline
terminator, a final unterminated piece is kept, empty text gives no
lines. -/
def splitKeepEnds : List Char → List Line
  | [] => []
  | c :: cs =>
    if c = '\n' then ['\n'] :: splitKeepEnds cs
    else
      match splitKeepEnds cs with
      | [] => [[c]]
      | l :: ls => (c :: l) :: ls

/-- Python `splitlines()`: terminators dropped, no trailing empty
piece for newline-terminated text. -/
def splitLines : List Char → List Line
  | [] => []
  | c :: cs =>
    if c = '\n' then [] :: splitLines cs
    else
      match splitLines cs with
      | [] => [[c]]
      | l :: ls => (c :: l) :: ls

/-- Python `''.join(lines)`. -/
def joinLines (ls : List Line) : List Char :=
  ls.foldr (fun l acc => l ++ acc) []

/-- Python `line.lstrip()`. -/
def lstrip (l : Line) : Line := l.dropWhile pyIsSpace

/-- Python `not line.strip()`: the line is empty or all whitespace. -/
def isBlankLine (l : Line) : Bool := l.all pyIsSpace

/-- Python `len(line) - len(line.lstrip())`: the leading whitespace
count. -/
def indentOf (l : Line) : Nat := (l.takeWhile pyIsSpace).length

/-- The optional regex group `(?:async\s+)?`: if the text starts with
the keyword `async` followed by at least one whitespace character, skip
the keyword and the whitespace run; otherwise leave the text alone (the
group matches empty).  Whitespace may include newlines, as in the
multi-line search of the source. -/
def afterAsync (s : List Char) : List Char :=
  if s.take 5 = "async".toList then
    match s.drop 5 with
    | [] => s
    | c :: rest => if pyIsSpace c then List.dropWhile pyIsSpace (c :: rest) else s
  else s

/-- The regex `(?:def|class)\s+`: one of the two keywords followed by a
nonempty whitespace run; returns the text after the run, or none when
the pattern does not match here. -/
def afterDefKw (s : List Char) : Option (List Char) :=
  if s.take 3 = "def".toList then
    match s.drop 3 with
    | [] => none
    | c :: rest => if pyIsSpace c then some (List.dropWhile pyIsSpace (c :: rest)) else none
  else if s.take 5 = "class".toList then
    match s.drop 5 with
    | [] => none
    | c :: rest => if pyIsSpace c then some (List.dropWhile pyIsSpace (c :: rest)) else none
  else none

/-- A match of `_DEF_RE` at this position: optional async, def or
class, whitespace, then the captured nonempty word run. -/
def matchDefStream (s : List Char) : Option Line :=
  match afterDefKw (afterAsync s) with
  | none => none
  | some r =>
    let name := r.takeWhile isWordChar
    if name.isEmpty then none else some name

/-- The tails of the text that start right after each newline; with the
whole text, these are the positions where the multiline anchor of
`_DEF_RE.search` can match. -/
def lineStartTails : List Char → List (List Char)
  | [] => []
  | c :: cs => if c = '\n' then cs :: lineStartTails cs else lineStartTails cs

/-- `_DEF_RE.search(snippet)`: the first line-start position matching
the pattern yields the captured definition name. -/
def defNameOf (s : List Char) : Option Line :=
  (s :: lineStartTails s).findSome? matchDefStream

/-- Line 94 of the source: the stripped line matches
`(?:async\s+)?(?:def|class)\s+NAME\b`. -/
def matchesNamedDef (stripped name : Line) : Bool :=
  match afterDefKw (afterAsync stripped) with
  | none => false
  | some r =>
    decide (r.take name.length = name) &&
      (match r.drop name.length with
       | [] => true
       | c :: _ => !isWordChar c)

/-- Line 108 of the source: the stripped line matches
`(?:async\s+)?(?:def|class)\s`, i.e. it starts a new definition. -/
def startsDefKw (l : Line) : Bool := (afterDefKw (afterAsync l)).isSome

/-- The first loop of `_find_snippet_region`: the first line whose
stripped form names the wanted definition, with its indentation. -/
def findDefStart (name : Line) : List Line → Nat → Option (Nat × Nat)
  | [], _ => none
  | l :: rest, i =>
    if matchesNamedDef (lstrip l) name then some (i, indentOf l)
    else findDefStart name rest (i + 1)

/-- The second loop of `_find_snippet_region`: scanning from the line
after the definition, skip blank lines, and stop at the first line
whose indentation is at most the definition's and which itself starts a
new definition; the default is the line count of the file. -/
def findDefEnd (indent : Nat) : List Line → Nat → Nat → Nat
  | [], _, n => n
  | l :: rest, i, n =>
    if isBlankLine l then findDefEnd indent rest (i + 1) n
    else if indentOf l ≤ indent && startsDefKw (lstrip l) then i
    else findDefEnd indent rest (i + 1) n

/-- `_find_snippet_region`: the line range of the first definition
named in the snippet, or none. -/
def findSnippetRegion (original snippet : List Char) : Option (Nat × Nat) :=
  match defNameOf snippet with
  | none => none
  | some name =>
    let origLines := splitLines original
    match findDefStart name origLines 0 with
    | none => none
    | some (start, indent) =>
      some (start, findDefEnd indent (origLines.drop (start + 1)) (start + 1) origLines.length)

section Matcher

variable {α : Type} [DecidableEq α]

/-- Python slice `l[i:j]` for natural bounds. -/
def pySlice (l : List α) (i j : Nat) : List α := (l.drop i).take (j - i)

/-- Length of the common front run of two lists. -/
def cpl : List α → List α → Nat
  | x :: xs, y :: ys => if x = y then cpl xs ys + 1 else 0
  | _, _ => 0

/-- Length of the match of a and b starting at i and j, within the
upper range bounds. -/
def mlenAt (a b : List α) (ahi bhi i j : Nat) : Nat :=
  cpl ((a.drop i).take (ahi - i)) ((b.drop j).take (bhi - j))

/-- The naturals from lo up to hi, excluded. -/
def rangeL (lo hi : Nat) : List Nat := (List.range (hi - lo)).map (lo + ·)

/-- All start pairs of the two ranges, in lexicographic order. -/
def pairL (alo ahi blo bhi : Nat) : List (Nat × Nat) :=
  (rangeL alo ahi).foldr (fun i acc => (rangeL blo bhi).map (Prod.mk i) ++ acc) []

/-- One step of the search for the longest matching block: a strictly
longer match replaces the best seen so far. -/
def flmStep (a b : List α) (ahi bhi : Nat) (best : Nat × Nat × Nat) (p : Nat × Nat) :
    Nat × Nat × Nat :=
  let k := mlenAt a b ahi bhi p.1 p.2
  if best.2.2 < k then (p.1, p.2, k) else best

/-- `find_longest_match` on `a[alo:ahi]` and `b[blo:bhi]` with the junk
heuristic disabled: the longest matching block, and among those the one
starting earliest in a and then earliest in b, which is the documented
contract of the library matcher when every element participates. -/
def flm (a b : List α) (alo ahi blo bhi : Nat) : Nat × Nat × Nat :=
  (pairL alo ahi blo bhi).foldl (flmStep a b ahi bhi) (alo, blo, 0)

/-- The recursive block collection of `get_matching_blocks`: the
longest match splits the ranges, and the sorted result is the left
blocks, the match, then the right blocks.  The fuel only bounds the
recursion depth; the top call passes more than the interval width, so
it never runs out. -/
def mbAux (a b : List α) : Nat → Nat → Nat → Nat → Nat → List (Nat × Nat × Nat)
  | 0, _, _, _, _ => []
  | fuel + 1, alo, ahi, blo, bhi =>
    let r := flm a b alo ahi blo bhi
    if r.2.2 = 0 then []
    else
      mbAux a b fuel alo r.1 blo r.2.1 ++
        (r.1, r.2.1, r.2.2) :: mbAux a b fuel (r.1 + r.2.2) ahi (r.2.1 + r.2.2) bhi

/-- The second loop of `get_matching_blocks`: adjacent blocks collapse
into one. -/
def naAux : Nat × Nat × Nat → List (Nat × Nat × Nat) → List (Nat × Nat × Nat)
  | acc, [] => if acc.2.2 = 0 then [] else [acc]
  | acc, blk :: rest =>
    if acc.1 + acc.2.2 = blk.1 && acc.2.1 + acc.2.2 = blk.2.1 then
      naAux (acc.1, acc.2.1, acc.2.2 + blk.2.2) rest
    else
      (if acc.2.2 = 0 then [] else [acc]) ++ naAux blk rest

/-- `get_matching_blocks`, terminator block included. -/
def matchingBlocks (a b : List α) : List (Nat × Nat × Nat) :=
  naAux (0, 0, 0) (mbAux a b (a.length + 1) 0 a.length 0 b.length) ++
    [(a.length, b.length, 0)]

/-- The four opcode tags of the matcher. -/
inductive Tag
  | equal
  | replace
  | insert
  | delete
deriving DecidableEq

/-- One opcode over the two index ranges. -/
structure Opcode where
  tag : Tag
  i1 : Nat
  i2 : Nat
  j1 : Nat
  j2 : Nat
deriving DecidableEq

/-- The loop of `get_opcodes`: gaps before each matching block become
replace, delete or insert opcodes, and each nonempty block an equal
opcode. -/
def opcodesAux : Nat → Nat → List (Nat × Nat × Nat) → List Opcode
  | _, _, [] => []
  | i, j, blk :: rest =>
    (if i < blk.1 && j < blk.2.1 then [⟨Tag.replace, i, blk.1, j, blk.2.1⟩]
     else if i < blk.1 then [⟨Tag.delete, i, blk.1, j, blk.2.1⟩]
     else if j < blk.2.1 then [⟨Tag.insert, i, blk.1, j, blk.2.1⟩]
     else []) ++
    (if blk.2.2 ≠ 0 then [⟨Tag.equal, blk.1, blk.1 + blk.2.2, blk.2.1, blk.2.1 + blk.2.2⟩]
     else []) ++
    opcodesAux (blk.1 + blk.2.2) (blk.2.1 + blk.2.2) rest

/-- `SequenceMatcher(None, a, b, autojunk=False).get_opcodes()`. -/
def getOpcodes (a b : List α) : List Opcode :=
  opcodesAux 0 0 (matchingBlocks a b)

/-- The first loop of `_merge_snippet`: the original end bound of the
last non-delete opcode, zero when there is none. -/
def lastNonDeleteEnd (ops : List Opcode) : Nat :=
  ops.foldl (fun acc op => if op.tag ≠ Tag.delete then op.i2 else acc) 0

/-- `_merge_snippet`: equal blocks copy the original, replace and
insert blocks take the snippet, and a delete block keeps the original
lines exactly when it starts at or after the original end of the last
non-delete opcode (a trailing truncation), dropping them otherwise. -/
def mergeSnippet (origLines snippetLines : List α) : List α :=
  let ops : List Opcode := getOpcodes origLines snippetLines
  let lastNonDeleteOrigEnd : Nat := lastNonDeleteEnd ops
  ops.foldl (fun (result : List α) op =>
    if op.tag = Tag.equal then result ++ pySlice origLines op.i1 op.i2
    else if op.tag = Tag.replace || op.tag = Tag.insert then
      result ++ pySlice snippetLines op.j1 op.j2
    else if lastNonDeleteOrigEnd ≤ op.i1 then result ++ pySlice origLines op.i1 op.i2
    else result) []

/-- The highest original index covered by any non-delete opcode, as the
specification words it: the largest original end bound over the
non-delete opcodes, zero when there are none. -/
def highestNonDeleteEnd (ops : List Opcode) : Nat :=
  ops.foldl (fun acc op => if op.tag ≠ Tag.delete then max acc op.i2 else acc) 0

/-- The merge policy as the specification words it, to be compared with
`mergeSnippet`: per opcode in order, equal copies the original, replace
and insert take the snippet, and a delete block is kept exactly when
its start is at or after the highest original index covered by any
non-delete opcode. -/
def mergeRegionSpec (origLines snippetLines : List α) : List α :=
  let ops : List Opcode := getOpcodes origLines snippetLines
  let highest : Nat := highestNonDeleteEnd ops
  ops.foldl (fun (result : List α) op =>
    if op.tag = Tag.equal then result ++ pySlice origLines op.i1 op.i2
    else if op.tag = Tag.replace || op.tag = Tag.insert then
      result ++ pySlice snippetLines op.j1 op.j2
    else if highest ≤ op.i1 then result ++ pySlice origLines op.i1 op.i2
    else result) []

end Matcher

/-- `_compute_proposed_file`: a hint region restricts the merge to the
hinted slice and splices the untouched outside back; without a hint,
when the snippet is shorter than 85 percent of the original (the exact
rational comparison, which the source float comparison realises on file
sized inputs) and a named definition region is found, only that region
is merged; otherwise the snippet is the whole proposed file. -/
def computeProposedFile (origLines : List Line) (proposedCode : List Char)
    (hintRegion : Option (Nat × Nat)) : List Line :=
  let snippetLines := splitKeepEnds proposedCode
  match hintRegion with
  | some (start, stop) =>
    origLines.take start ++ mergeSnippet (pySlice origLines start stop) snippetLines ++
      origLines.drop stop
  | none =>
    if snippetLines.length * 20 < origLines.length * 17 then
      match findSnippetRegion (joinLines origLines) proposedCode with
      | some (start, stop) =>
        origLines.take start ++ mergeSnippet (pySlice origLines start stop) snippetLines ++
          origLines.drop stop
      | none => snippetLines
    else snippetLines

/-- Decimal digits of a natural number. -/
def natChars (n : Nat) : List Char := (Nat.repr n).toList

/-- The unified hunk range text of the library diff formatter. -/
def formatRangeUnified (start stop : Nat) : List Char :=
  let length := stop - start
  if length = 1 then natChars (start + 1)
  else if length = 0 then natChars start ++ ",0".toList
  else natChars (start + 1) ++ [','] ++ natChars length

/-- `get_grouped_opcodes`: trim a leading equal opcode to the context
width. -/
def adjFirst (n : Nat) : List Opcode → List Opcode
  | [] => []
  | c :: rest =>
    (if c.tag = Tag.equal then ⟨Tag.equal, max c.i1 (c.i2 - n), c.i2, max c.j1 (c.j2 - n), c.j2⟩
     else c) :: rest

/-- `get_grouped_opcodes`: trim a trailing equal opcode to the context
width. -/
def adjLast (n : Nat) : List Opcode → List Opcode
  | [] => []
  | [c] =>
    [if c.tag = Tag.equal then ⟨Tag.equal, c.i1, min c.i2 (c.i1 + n), c.j1, min c.j2 (c.j1 + n)⟩
     else c]
  | c :: rest => c :: adjLast n rest

/-- The grouping loop of `get_grouped_opcodes`: a wide equal opcode
closes the current group and opens the next, and a final group of one
equal opcode is suppressed. -/
def groupSplit (n : Nat) : List Opcode → List Opcode → List (List Opcode)
  | group, [] =>
    match group with
    | [] => []
    | [op] => if op.tag = Tag.equal then [] else [[op]]
    | g => [g]
  | group, op :: rest =>
    if op.tag = Tag.equal && op.i2 - op.i1 > n + n then
      (group ++ [⟨Tag.equal, op.i1, min op.i2 (op.i1 + n), op.j1, min op.j2 (op.j1 + n)⟩]) ::
        groupSplit n [⟨Tag.equal, max op.i1 (op.i2 - n), op.i2, max op.j1 (op.j2 - n), op.j2⟩] rest
    else groupSplit n (group ++ [op]) rest

/-- `get_grouped_opcodes` with context width n. -/
def groupedOpcodes (a b : List Line) (n : Nat) : List (List Opcode) :=
  let codes := getOpcodes a b
  let codes := if codes.isEmpty then [⟨Tag.equal, 0, 1, 0, 1⟩] else codes
  groupSplit n [] (adjLast n (adjFirst n codes))

/-- The hunk header line of one group. -/
def hunkHeader (group : List Opcode) : List Char :=
  let d : Opcode := ⟨Tag.equal, 0, 0, 0, 0⟩
  let first := group.headD d
  let last := group.getLastD d
  "@@ -".toList ++ formatRangeUnified first.i1 last.i2 ++ " +".toList ++
    formatRangeUnified first.j1 last.j2 ++ " @@\n".toList

/-- The lines of one hunk: the header, then per opcode the context,
removed and added lines with their markers. -/
def hunkLines (a b : List Line) (group : List Opcode) : List Line :=
  hunkHeader group ::
    group.foldr (fun op acc =>
      (if op.tag = Tag.equal then (pySlice a op.i1 op.i2).map (fun l => ' ' :: l)
       else
         (if op.tag = Tag.replace || op.tag = Tag.delete then
            (pySlice a op.i1 op.i2).map (fun l => '-' :: l)
          else []) ++
         (if op.tag = Tag.replace || op.tag = Tag.insert then
            (pySlice b op.j1 op.j2).map (fun l => '+' :: l)
          else [])) ++ acc) []

/-- `difflib.unified_diff(a, b, fromfile, tofile, n=3)` as a line list:
empty when there are no groups, else the two header lines and the
hunks. -/
def unifiedDiff (a b : List Line) (fromfile tofile : List Char) (n : Nat) : List Line :=
  match groupedOpcodes a b n with
  | [] => []
  | gs =>
    ("--- ".toList ++ fromfile ++ ['\n']) :: ("+++ ".toList ++ tofile ++ ['\n']) ::
      gs.foldr (fun g acc => hunkLines a b g ++ acc) []

/-- The diff text computed by `open_diff` before registering the
pending entry: the unified diff of the original lines against the
proposed lines, or the no-differences sentinel when the diff is
empty. -/
def openDiffText (original proposedCode : List Char) (hint : Option (Nat × Nat))
    (filename : List Char) : List Char :=
  let origLines := splitKeepEnds original
  let newLines := computeProposedFile origLines proposedCode hint
  let diffLines := unifiedDiff origLines newLines ("a/".toList ++ filename)
    ("b/".toList ++ filename) 3
  if diffLines.isEmpty then "(No differences)\n".toList else joinLines diffLines

/-- `_DiffEntry`: the target view handle, the complete proposed file
content, and the new file destination path. -/
structure DiffEntry where
  target_view_id : Option Nat
  full_proposed : List Char
  new_filepath : Option (List Char)
deriving DecidableEq

/-- The module level `_pending` dict, keyed by the diff id. -/
def PendingMap : Type := String → Option DiffEntry

/-- Dict write `_pending[id] = e`. -/
def insertPending (p : PendingMap) (id : String) (e : DiffEntry) : PendingMap :=
  fun x => if x = id then some e else p x

/-- Dict removal `_pending.pop(id, None)`, the removed map. -/
def removePending (p : PendingMap) (id : String) : PendingMap :=
  fun x => if x = id then none else p x

/-- The observable editor effects of the apply and reject handlers. -/
inductive EditorAction
  | closeView (viewId : Nat)
  | focusView (viewId : Nat)
  | applyCode (viewId : Nat) (code : List Char)
  | createFile (filepath : List Char) (code : List Char)
deriving DecidableEq

/-- An open document of the window. -/
structure EditorView where
  id : Nat
deriving DecidableEq

/-- The window holding the open documents. -/
structure EditorWindow where
  views : List EditorView
deriving DecidableEq

/-- Python truthiness of the optional path string: None and the empty
string are falsy. -/
def pathTruthy : Option (List Char) → Bool
  | some p => !p.isEmpty
  | none => false

/-- Python `v.id() == entry.target_view_id`: an integer view id never
equals None. -/
def viewIdEq (vid : Nat) : Option Nat → Bool
  | some t => vid == t
  | none => false

/-- `_apply`: pop the entry, and when one was present close the diff
view, then either run the file creation command, or focus and rewrite
the target view when it is still open; a missing entry, window or
target ends the handler silently. -/
def applyPending (p : PendingMap) (id : String) (diffViewId : Nat)
    (window : Option EditorWindow) : PendingMap × List EditorAction :=
  match p id with
  | none => (p, [])
  | some entry =>
    let p2 := removePending p id
    match window with
    | none => (p2, [EditorAction.closeView diffViewId])
    | some w =>
      if pathTruthy entry.new_filepath then
        (p2, [EditorAction.closeView diffViewId,
              EditorAction.createFile (entry.new_filepath.getD []) entry.full_proposed])
      else
        match w.views.find? (fun v => viewIdEq v.id entry.target_view_id) with
        | some t =>
          (p2, [EditorAction.closeView diffViewId, EditorAction.focusView t.id,
                EditorAction.applyCode t.id entry.full_proposed])
        | none => (p2, [EditorAction.closeView diffViewId])

/-- The reject branch of `_on_navigate`: drop the entry, close the
preview. -/
def rejectPending (p : PendingMap) (id : String) (diffViewId : Nat) :
    PendingMap × List EditorAction :=
  (removePending p id, [EditorAction.closeView diffViewId])

/-- The registration of `open_diff`, line 163: the entry holds the
target view handle and no path. -/
def openDiffRegister (p : PendingMap) (id : String) (targetViewId : Nat)
    (fullProposed : List Char) : PendingMap :=
  insertPending p id ⟨some targetViewId, fullProposed, none⟩

/-- The registration of `open_new_file_preview`, line 175: the entry
holds the destination path and no view handle. -/
def openNewFileRegister (p : PendingMap) (id : String) (filepath content : List Char) :
    PendingMap :=
  insertPending p id ⟨none, content, some filepath⟩

/-- Exactly one of the two target fields of an entry is populated. -/
def ExactlyOneTarget (e : DiffEntry) : Prop :=
  (e.target_view_id.isSome ∧ e.new_filepath = none) ∨
    (e.target_view_id = none ∧ e.new_filepath.isSome)

/-- Every entry of the pending map has exactly one target. -/
def PendingInvariant (p : PendingMap) : Prop :=
  ∀ id e, p id = some e → ExactlyOneTarget e

/-- The matching blocks of a range pair form a chain: each block lies
inside the current bounds and the following blocks lie after it. -/
inductive ChainedIn : Nat → Nat → Nat → Nat → List (Nat × Nat × Nat) → Prop
  | nil {alo ahi blo bhi : Nat} : ChainedIn alo ahi blo bhi []
  | cons {alo ahi blo bhi ai bj sz : Nat} {rest : List (Nat × Nat × Nat)}
      (hai : alo ≤ ai) (hae : ai + sz ≤ ahi) (hbj : blo ≤ bj) (hbe : bj + sz ≤ bhi)
      (hrest : ChainedIn (ai + sz) ahi (bj + sz) bhi rest) :
      ChainedIn alo ahi blo bhi ((ai, bj, sz) :: rest)

theorem removePending_absent (p : PendingMap) (id : String) (h : p id = none) :
    removePending p id = p := by
  funext x
  unfold removePending
  by_cases hx : x = id
  · rw [if_pos hx, hx, h]
  · rw [if_neg hx]

/-- C6: accepting or rejecting an id that is not in the pending map
leaves the map unchanged, performs no editor action at all on accept,
and only closes the preview on reject; in particular no document is
mutated and no file is written, and no error is raised. -/
theorem unknownIdNoop (p : PendingMap) (id : String) (dv : Nat)
    (w : Option EditorWindow) (h : p id = none) :
    applyPending p id dv w = (p, []) ∧
      rejectPending p id dv = (p, [EditorAction.closeView dv]) := by
  constructor
  · unfold applyPending
    rw [h]
  · unfold rejectPending
    rw [removePending_absent p id h]

theorem unknownIdNoopWitness :
    ((fun _ => none : PendingMap) "k" = none) ∧
      applyPending (fun _ => none) "k" 0 none = ((fun _ => none : PendingMap), []) ∧
      rejectPending (fun _ => none) "k" 0 =
        ((fun _ => none : PendingMap), [EditorAction.closeView 0]) :=
  ⟨rfl, (unknownIdNoop _ "k" 0 none rfl).1, (unknownIdNoop _ "k" 0 none rfl).2⟩

theorem insertPending_invariant (p : PendingMap) (hp : PendingInvariant p) (id : String)
    (e : DiffEntry) (he : ExactlyOneTarget e) : PendingInvariant (insertPending p id e) := by
  intro x e' hx
  unfold insertPending at hx
  by_cases hxi : x = id
  · rw [if_pos hxi] at hx
    obtain rfl := Option.some.inj hx
    exact he
  · rw [if_neg hxi] at hx
    exact hp x e' hx

theorem removePending_invariant (p : PendingMap) (hp : PendingInvariant p) (id : String) :
    PendingInvariant (removePending p id) := by
  intro x e hx
  unfold removePending at hx
  by_cases hxi : x = id
  · rw [if_pos hxi] at hx
    exact absurd hx (by simp)
  · rw [if_neg hxi] at hx
    exact hp x e hx

theorem applyPending_fst (p : PendingMap) (id : String) (dv : Nat) (w : Option EditorWindow) :
    (applyPending p id dv w).1 = p ∨ (applyPending p id dv w).1 = removePending p id := by
  unfold applyPending
  cases hpid : p id with
  | none => exact Or.inl rfl
  | some entry =>
    cases w with
    | none => exact Or.inr rfl
    | some w2 =>
      by_cases hpt : pathTruthy entry.new_filepath
      · simp only [hpt]
        exact Or.inr rfl
      · simp only [Bool.not_eq_true] at hpt
        simp only [hpt]
        cases w2.views.find? (fun v => viewIdEq v.id entry.target_view_id) with
        | some t => exact Or.inr rfl
        | none => exact Or.inr rfl

/-- C9: every entry stored by either registration has exactly one of
the two target fields populated, and every operation that registers,
accepts or rejects a pending edit preserves the map-wide invariant. -/
theorem pendingTargetInvariant (p : PendingMap) (hp : PendingInvariant p) (id : String)
    (vid dv : Nat) (content fp : List Char) (w : Option EditorWindow) :
    PendingInvariant (openDiffRegister p id vid content) ∧
      PendingInvariant (openNewFileRegister p id fp content) ∧
      PendingInvariant (applyPending p id dv w).1 ∧
      PendingInvariant (rejectPending p id dv).1 := by
  refine ⟨?_, ?_, ?_, ?_⟩
  · exact insertPending_invariant p hp id _ (Or.inl ⟨rfl, rfl⟩)
  · exact insertPending_invariant p hp id _ (Or.inr ⟨rfl, rfl⟩)
  · rcases applyPending_fst p id dv w with h | h
    · rw [h]; exact hp
    · rw [h]; exact removePending_invariant p hp id
  · exact removePending_invariant p hp id

theorem pendingTargetInvariantWitness :
    PendingInvariant (openDiffRegister (fun _ => none) "k" 1 []) ∧
      PendingInvariant (openNewFileRegister (fun _ => none) "k" "a.py".toList []) ∧
      PendingInvariant (applyPending (fun _ => none) "k" 0 none).1 ∧
      PendingInvariant (rejectPending (fun _ => none) "k" 0).1 := by
  have hp : PendingInvariant (fun _ => none : PendingMap) := fun _ e h => nomatch h
  exact pendingTargetInvariant (fun _ => none) hp "k" 1 0 [] "a.py".toList none

/-- C10: accepting a pending edit that targets an existing document
whose view is no longer open removes the entry from the map and only
closes the preview: no document is mutated and no file is written. -/
theorem staleTargetDiscard (p : PendingMap) (id : String) (e : DiffEntry) (dv vid : Nat)
    (w : EditorWindow) (hid : p id = some e) (hv : e.target_view_id = some vid)
    (hfp : e.new_filepath = none) (habsent : ∀ v ∈ w.views, v.id ≠ vid) :
    applyPending p id dv (some w) = (removePending p id, [EditorAction.closeView dv]) ∧
      removePending p id id = none := by
  constructor
  · unfold applyPending
    rw [hid]
    have hpt : pathTruthy e.new_filepath = false := by rw [hfp]; rfl
    simp only [hpt]
    have hfind : w.views.find? (fun v => viewIdEq v.id e.target_view_id) = none := by
      rw [List.find?_eq_none]
      intro v hvmem
      rw [hv]
      simp only [viewIdEq, beq_iff_eq]
      exact habsent v hvmem
    simp [hfind]
  · unfold removePending
    rw [if_pos rfl]

theorem staleTargetDiscardWitness :
    ((fun x => if x = "k" then some (⟨some 5, [], none⟩ : DiffEntry) else none) : PendingMap)
          "k" = some ⟨some 5, [], none⟩ ∧
      (∀ v ∈ (⟨[⟨1⟩]⟩ : EditorWindow).views, v.id ≠ 5) ∧
      applyPending (fun x => if x = "k" then some ⟨some 5, [], none⟩ else none) "k" 0
          (some ⟨[⟨1⟩]⟩) =
        (removePending (fun x => if x = "k" then some ⟨some 5, [], none⟩ else none) "k",
          [EditorAction.closeView 0]) := by
  refine ⟨by simp, by decide, ?_⟩
  exact (staleTargetDiscard _ "k" ⟨some 5, [], none⟩ 0 5 ⟨[⟨1⟩]⟩ (by simp) rfl rfl
    (by decide)).1

/-- C3: with a hint range the computed file is exactly the untouched
head of the original, the merged hinted slice, and the untouched tail;
hence every line before the start and every line from the stop onward
is preserved unchanged and in place, whatever the snippet is. -/
theorem hintFrame (origLines : List Line) (proposedCode : List Char) (start stop : Nat) :
    computeProposedFile origLines proposedCode (some (start, stop)) =
        origLines.take start ++
          mergeSnippet (pySlice origLines start stop) (splitKeepEnds proposedCode) ++
          origLines.drop stop ∧
      (computeProposedFile origLines proposedCode (some (start, stop))).take
          (origLines.take start).length = origLines.take start ∧
      (computeProposedFile origLines proposedCode (some (start, stop))).drop
          ((computeProposedFile origLines proposedCode (some (start, stop))).length -
            (origLines.drop stop).length) = origLines.drop stop := by
  have h1 : computeProposedFile origLines proposedCode (some (start, stop)) =
      origLines.take start ++
        mergeSnippet (pySlice origLines start stop) (splitKeepEnds proposedCode) ++
        origLines.drop stop := rfl
  refine ⟨h1, ?_, ?_⟩
  · rw [h1, List.append_assoc, List.take_left]
  · rw [h1, List.length_append, Nat.add_sub_cancel, List.drop_left]

/-- C4: without a hint range, when the snippet is not shorter than 85
percent of the original, or no named definition region is found, the
proposed file is exactly the snippet lines. -/
theorem fullReplacementFallback (origLines : List Line) (proposedCode : List Char)
    (h : ¬ (splitKeepEnds proposedCode).length * 20 < origLines.length * 17 ∨
      findSnippetRegion (joinLines origLines) proposedCode = none) :
    computeProposedFile origLines proposedCode none = splitKeepEnds proposedCode := by
  have hred : computeProposedFile origLines proposedCode none =
      if (splitKeepEnds proposedCode).length * 20 < origLines.length * 17 then
        (match findSnippetRegion (joinLines origLines) proposedCode with
          | some (start, stop) =>
            origLines.take start ++
              mergeSnippet (pySlice origLines start stop) (splitKeepEnds proposedCode) ++
              origLines.drop stop
          | none => splitKeepEnds proposedCode)
      else splitKeepEnds proposedCode := rfl
  rw [hred]
  rcases h with h | h
  · rw [if_neg h]
  · by_cases ht : (splitKeepEnds proposedCode).length * 20 < origLines.length * 17
    · rw [if_pos ht, h]
    · rw [if_neg ht]

theorem fullReplacementFallbackWitness :
    (¬ (splitKeepEnds "x\n".toList).length * 20 < ([] : List Line).length * 17) ∧
      computeProposedFile [] "x\n".toList none = splitKeepEnds "x\n".toList :=
  ⟨by decide, fullReplacementFallback [] _ (Or.inl (by decide))⟩

/-- C2 as stated is false on the code: on the five line original and
the three line snippet the merged region replaces the blank line of
the body of f with the extra comment line, so the blank line is not in
the result the claim lists. -/
theorem namedRegionMergeCex :
    computeProposedFile
        ["def f():\n".toList, "    return 1\n".toList, "\n".toList, "def g():\n".toList,
          "    return 2\n".toList]
        "def f():\n    return 1\n    # extra\n".toList none ≠
      ["def f():\n".toList, "    return 1\n".toList, "    # extra\n".toList, "\n".toList,
        "def g():\n".toList, "    return 2\n".toList] := by
  decide

/-- C2 amended: the engine locates f, merges only within its body and
leaves g untouched, but the merged body is the snippet body: the blank
line of the original body is consumed by the replace opcode, so the
result has five lines, without the blank line before g. -/
theorem namedRegionMerge :
    computeProposedFile
        ["def f():\n".toList, "    return 1\n".toList, "\n".toList, "def g():\n".toList,
          "    return 2\n".toList]
        "def f():\n    return 1\n    # extra\n".toList none =
      ["def f():\n".toList, "    return 1\n".toList, "    # extra\n".toList,
        "def g():\n".toList, "    return 2\n".toList] := by
  decide

section MatcherFacts

variable {α : Type} [DecidableEq α]

theorem cpl_le_left (x : List α) : ∀ y : List α, cpl x y ≤ x.length := by
  induction x with
  | nil => intro y; cases y <;> simp [cpl]
  | cons a xs ih =>
    intro y
    cases y with
    | nil => simp [cpl]
    | cons b ys =>
      unfold cpl
      by_cases h : a = b
      · rw [if_pos h]
        simpa using ih ys
      · rw [if_neg h]
        simp

theorem cpl_le_right (x : List α) : ∀ y : List α, cpl x y ≤ y.length := by
  induction x with
  | nil => intro y; cases y <;> simp [cpl]
  | cons a xs ih =>
    intro y
    cases y with
    | nil => simp [cpl]
    | cons b ys =>
      unfold cpl
      by_cases h : a = b
      · rw [if_pos h]
        simpa using ih ys
      · rw [if_neg h]
        simp

theorem cpl_self (x : List α) : cpl x x = x.length := by
  induction x with
  | nil => rfl
  | cons a xs ih =>
    unfold cpl
    rw [if_pos rfl, ih]
    rfl

theorem mlenAt_le_left (a b : List α) (ahi bhi i j : Nat) :
    mlenAt a b ahi bhi i j ≤ ahi - i := by
  unfold mlenAt
  refine le_trans (cpl_le_left _ _) ?_
  simp [List.length_take]

theorem mlenAt_le_right (a b : List α) (ahi bhi i j : Nat) :
    mlenAt a b ahi bhi i j ≤ bhi - j := by
  unfold mlenAt
  refine le_trans (cpl_le_right _ _) ?_
  simp [List.length_take]

theorem mem_rangeL {x lo hi : Nat} : x ∈ rangeL lo hi ↔ lo ≤ x ∧ x < hi := by
  unfold rangeL
  simp only [List.mem_map, List.mem_range]
  constructor
  · rintro ⟨k, hk, rfl⟩
    omega
  · rintro ⟨h1, h2⟩
    exact ⟨x - lo, by omega, by omega⟩

theorem mem_pairL {p : Nat × Nat} {alo ahi blo bhi : Nat} :
    p ∈ pairL alo ahi blo bhi ↔ (alo ≤ p.1 ∧ p.1 < ahi) ∧ blo ≤ p.2 ∧ p.2 < bhi := by
  have hfold : ∀ L : List Nat,
      (p ∈ L.foldr (fun i acc => (rangeL blo bhi).map (Prod.mk i) ++ acc) [] ↔
        ∃ i ∈ L, ∃ j ∈ rangeL blo bhi, p = (i, j)) := by
    intro L
    induction L with
    | nil => simp
    | cons x xs ih =>
      simp only [List.foldr_cons, List.mem_append, List.mem_map, ih, List.mem_cons]
      constructor
      · rintro (⟨j, hj, rfl⟩ | ⟨i, hi, j, hj, rfl⟩)
        · exact ⟨x, Or.inl rfl, j, hj, rfl⟩
        · exact ⟨i, Or.inr hi, j, hj, rfl⟩
      · rintro ⟨i, hi | hi, j, hj, rfl⟩
        · exact Or.inl ⟨j, hj, by rw [hi]⟩
        · exact Or.inr ⟨i, hi, j, hj, rfl⟩
  unfold pairL
  rw [hfold]
  constructor
  · rintro ⟨i, hi, j, hj, rfl⟩
    exact ⟨by simpa using mem_rangeL.mp hi, by simpa using mem_rangeL.mp hj⟩
  · rintro ⟨hi, hj⟩
    exact ⟨p.1, mem_rangeL.mpr hi, p.2, mem_rangeL.mpr hj, rfl⟩

theorem foldl_flmStep_cases (a b : List α) (ahi bhi : Nat) (l : List (Nat × Nat)) :
    ∀ init : Nat × Nat × Nat,
      (∃ p ∈ l, l.foldl (flmStep a b ahi bhi) init = (p.1, p.2, mlenAt a b ahi bhi p.1 p.2)) ∨
        l.foldl (flmStep a b ahi bhi) init = init := by
  induction l with
  | nil => exact fun init => Or.inr rfl
  | cons q qs ih =>
    intro init
    rcases ih (flmStep a b ahi bhi init q) with ⟨p, hp, h⟩ | h
    · exact Or.inl ⟨p, List.mem_cons_of_mem q hp, by rw [List.foldl_cons]; exact h⟩
    · by_cases hk : init.2.2 < mlenAt a b ahi bhi q.1 q.2
      · refine Or.inl ⟨q, List.mem_cons_self q qs, ?_⟩
        rw [List.foldl_cons, h]
        unfold flmStep
        rw [if_pos hk]
      · refine Or.inr ?_
        rw [List.foldl_cons, h]
        unfold flmStep
        rw [if_neg hk]

theorem foldl_flmStep_k_mono (a b : List α) (ahi bhi : Nat) (l : List (Nat × Nat)) :
    ∀ init : Nat × Nat × Nat, init.2.2 ≤ (l.foldl (flmStep a b ahi bhi) init).2.2 := by
  induction l with
  | nil => exact fun init => le_refl _
  | cons q qs ih =>
    intro init
    rw [List.foldl_cons]
    refine le_trans ?_ (ih (flmStep a b ahi bhi init q))
    unfold flmStep
    by_cases hk : init.2.2 < mlenAt a b ahi bhi q.1 q.2
    · rw [if_pos hk]
      exact le_of_lt hk
    · rw [if_neg hk]

theorem foldl_flmStep_ge (a b : List α) (ahi bhi : Nat) (l : List (Nat × Nat))
    {p : Nat × Nat} (hp : p ∈ l) :
    ∀ init : Nat × Nat × Nat,
      mlenAt a b ahi bhi p.1 p.2 ≤ (l.foldl (flmStep a b ahi bhi) init).2.2 := by
  induction l with
  | nil => exact absurd hp (List.not_mem_nil p)
  | cons q qs ih =>
    intro init
    rw [List.foldl_cons]
    rcases List.mem_cons.mp hp with rfl | hmem
    · refine le_trans ?_ (foldl_flmStep_k_mono a b ahi bhi qs _)
      unfold flmStep
      by_cases hk : init.2.2 < mlenAt a b ahi bhi p.1 p.2
      · rw [if_pos hk]
      · rw [if_neg hk]
        omega
    · exact ih hmem _

theorem flm_eq_init_or_mem (a b : List α) (alo ahi blo bhi : Nat) :
    flm a b alo ahi blo bhi = (alo, blo, 0) ∨
      ∃ i j, (alo ≤ i ∧ i < ahi ∧ blo ≤ j ∧ j < bhi) ∧
        flm a b alo ahi blo bhi = (i, j, mlenAt a b ahi bhi i j) := by
  rcases foldl_flmStep_cases a b ahi bhi (pairL alo ahi blo bhi) (alo, blo, 0) with
    ⟨p, hp, h⟩ | h
  · obtain ⟨⟨h1, h2⟩, h3, h4⟩ := mem_pairL.mp hp
    exact Or.inr ⟨p.1, p.2, ⟨h1, h2, h3, h4⟩, h⟩
  · exact Or.inl h

theorem flm_bounds (a b : List α) (alo ahi blo bhi : Nat)
    (h : (flm a b alo ahi blo bhi).2.2 ≠ 0) :
    alo ≤ (flm a b alo ahi blo bhi).1 ∧
      (flm a b alo ahi blo bhi).1 + (flm a b alo ahi blo bhi).2.2 ≤ ahi ∧
      blo ≤ (flm a b alo ahi blo bhi).2.1 ∧
      (flm a b alo ahi blo bhi).2.1 + (flm a b alo ahi blo bhi).2.2 ≤ bhi := by
  rcases flm_eq_init_or_mem a b alo ahi blo bhi with hc | ⟨i, j, ⟨h1, h2, h3, h4⟩, hc⟩
  · rw [hc] at h
    exact absurd rfl h
  · have hbi := mlenAt_le_left a b ahi bhi i j
    have hbj := mlenAt_le_right a b ahi bhi i j
    rw [hc]
    refine ⟨h1, ?_, h3, ?_⟩ <;> simp <;> omega

theorem flm_a_empty (a b : List α) (alo blo bhi : Nat) :
    flm a b alo alo blo bhi = (alo, blo, 0) := by
  rcases flm_eq_init_or_mem a b alo alo blo bhi with hc | ⟨i, j, ⟨h1, h2, _, _⟩, _⟩
  · exact hc
  · omega

theorem flm_b_empty (a b : List α) (alo ahi blo : Nat) :
    flm a b alo ahi blo blo = (alo, blo, 0) := by
  rcases flm_eq_init_or_mem a b alo ahi blo blo with hc | ⟨i, j, ⟨_, _, h3, h4⟩, _⟩
  · exact hc
  · omega

theorem mbAux_a_empty (a b : List α) (fuel alo blo bhi : Nat) :
    mbAux a b fuel alo alo blo bhi = [] := by
  cases fuel with
  | zero => rfl
  | succ f =>
    simp only [mbAux, flm_a_empty]
    rfl

theorem mbAux_b_empty (a b : List α) (fuel alo ahi blo : Nat) :
    mbAux a b fuel alo ahi blo blo = [] := by
  cases fuel with
  | zero => rfl
  | succ f =>
    simp only [mbAux, flm_b_empty]
    rfl

theorem matchingBlocks_nil_right (a : List α) :
    matchingBlocks a [] = [(a.length, 0, 0)] := by
  unfold matchingBlocks
  rw [show ([] : List α).length = 0 from rfl, mbAux_b_empty]
  rfl

theorem getOpcodes_nil_right (a : List α) :
    getOpcodes a [] =
      if a.length = 0 then [] else [⟨Tag.delete, 0, a.length, 0, 0⟩] := by
  unfold getOpcodes
  rw [matchingBlocks_nil_right]
  by_cases h : a.length = 0
  · rw [if_pos h]
    simp [opcodesAux, h]
  · rw [if_neg h]
    simp [opcodesAux, Nat.pos_of_ne_zero h]

theorem mergeSnippet_nil_right (xs : List α) : mergeSnippet xs [] = xs := by
  unfold mergeSnippet
  rw [getOpcodes_nil_right]
  by_cases h : xs.length = 0
  · rw [if_pos h]
    exact (List.length_eq_zero.mp h).symm
  · rw [if_neg h]
    simp [lastNonDeleteEnd, pySlice, List.take_length]

theorem take_pySlice_drop (l : List α) (s e : Nat) (h : s ≤ e) :
    l.take s ++ pySlice l s e ++ l.drop e = l := by
  unfold pySlice
  have h2 : l.drop e = (l.drop s).drop (e - s) := by
    rw [List.drop_drop]
    congr 1
    omega
  rw [h2, List.append_assoc, List.take_append_drop, List.take_append_drop]

theorem flm_self (l : List α) (h : l.length ≠ 0) :
    flm l l 0 l.length 0 l.length = (0, 0, l.length) := by
  have hmem : ((0, 0) : Nat × Nat) ∈ pairL 0 l.length 0 l.length :=
    mem_pairL.mpr (by simp; omega)
  have hml : mlenAt l l l.length l.length 0 0 = l.length := by
    unfold mlenAt
    simp [List.take_length, cpl_self]
  have hge := foldl_flmStep_ge l l l.length l.length (pairL 0 l.length 0 l.length) hmem
    ((0 : Nat), (0 : Nat), (0 : Nat))
  rw [hml] at hge
  rcases flm_eq_init_or_mem l l 0 l.length 0 l.length with hc | ⟨i, j, ⟨_, _, _, _⟩, hc⟩
  · rw [show flm l l 0 l.length 0 l.length =
        (pairL 0 l.length 0 l.length).foldl (flmStep l l l.length l.length) (0, 0, 0) from rfl]
      at hc
    rw [hc] at hge
    exact absurd (Nat.le_zero.mp hge) h
  · have hbi := mlenAt_le_left l l l.length l.length i j
    have hbj := mlenAt_le_right l l l.length l.length i j
    rw [show flm l l 0 l.length 0 l.length =
        (pairL 0 l.length 0 l.length).foldl (flmStep l l l.length l.length) (0, 0, 0) from rfl]
      at hc
    rw [hc] at hge
    simp at hge
    have hi : i = 0 := by omega
    have hj : j = 0 := by omega
    subst hi
    subst hj
    show (pairL 0 l.length 0 l.length).foldl (flmStep l l l.length l.length) (0, 0, 0) =
      (0, 0, l.length)
    rw [hc, hml]

theorem mbAux_self (l : List α) (h : l.length ≠ 0) (fuel : Nat) (hf : fuel ≠ 0) :
    mbAux l l fuel 0 l.length 0 l.length = [(0, 0, l.length)] := by
  cases fuel with
  | zero => exact absurd rfl hf
  | succ f =>
    simp only [mbAux, flm_self l h]
    rw [if_neg h]
    rw [mbAux_a_empty, Nat.zero_add, mbAux_a_empty]
    rfl

theorem matchingBlocks_self (l : List α) (h : l.length ≠ 0) :
    matchingBlocks l l = [(0, 0, l.length), (l.length, l.length, 0)] := by
  unfold matchingBlocks
  rw [mbAux_self l h (l.length + 1) (by omega)]
  simp [naAux, h]

theorem getOpcodes_self (l : List α) (h : l.length ≠ 0) :
    getOpcodes l l = [⟨Tag.equal, 0, l.length, 0, l.length⟩] := by
  unfold getOpcodes
  rw [matchingBlocks_self l h]
  simp [opcodesAux, h]

end MatcherFacts

theorem computeProposedFile_none_red (origLines : List Line) (proposedCode : List Char) :
    computeProposedFile origLines proposedCode none =
      if (splitKeepEnds proposedCode).length * 20 < origLines.length * 17 then
        (match findSnippetRegion (joinLines origLines) proposedCode with
          | some (start, stop) =>
            origLines.take start ++
              mergeSnippet (pySlice origLines start stop) (splitKeepEnds proposedCode) ++
              origLines.drop stop
          | none => splitKeepEnds proposedCode)
      else splitKeepEnds proposedCode := rfl

/-- C7 as stated is false on the code: with a hint range the empty
snippet does not give the empty line list, because the alignment of
the hinted region against no snippet lines is a single trailing delete
block, which the merge restores. -/
theorem emptySnippetCex :
    computeProposedFile [['a', '\n'], ['b', '\n']] [] (some (0, 2)) ≠ [] := by
  decide

/-- C7 amended: an empty snippet never raises; without a hint range it
degrades to a full file replacement with empty content, while with a
hint range the hinted slice is restored whole as a trailing
truncation, so the original lines come back unchanged. -/
theorem emptySnippetAmended (origLines : List Line) :
    computeProposedFile origLines [] none = [] ∧
      ∀ start stop, start ≤ stop →
        computeProposedFile origLines [] (some (start, stop)) = origLines := by
  constructor
  · rw [computeProposedFile_none_red]
    split <;> rfl
  · intro start stop hle
    have h1 : computeProposedFile origLines [] (some (start, stop)) =
        origLines.take start ++ mergeSnippet (pySlice origLines start stop) [] ++
          origLines.drop stop := rfl
    rw [h1, mergeSnippet_nil_right]
    exact take_pySlice_drop origLines start stop hle

theorem emptySnippetWitness :
    computeProposedFile [['a', '\n']] [] none = [] ∧
      computeProposedFile [['a', '\n']] [] (some (0, 1)) = [['a', '\n']] :=
  ⟨(emptySnippetAmended _).1, (emptySnippetAmended _).2 0 1 (by decide)⟩

theorem groupedOpcodes_self (a : List Line) : groupedOpcodes a a 3 = [] := by
  unfold groupedOpcodes
  by_cases h : a.length = 0
  · have ha : a = [] := List.length_eq_zero.mp h
    subst ha
    rfl
  · rw [getOpcodes_self a h]
    show groupSplit 3 [] (adjLast 3 (adjFirst 3 [⟨Tag.equal, 0, a.length, 0, a.length⟩])) = []
    have h1 : adjFirst 3 [⟨Tag.equal, 0, a.length, 0, a.length⟩] =
        [⟨Tag.equal, a.length - 3, a.length, a.length - 3, a.length⟩] := by
      simp [adjFirst]
    have h2 : adjLast 3 [⟨Tag.equal, a.length - 3, a.length, a.length - 3, a.length⟩] =
        [⟨Tag.equal, a.length - 3, a.length, a.length - 3, a.length⟩] := by
      simp [adjLast]
      omega
    have h3 : groupSplit 3 [] [⟨Tag.equal, a.length - 3, a.length, a.length - 3, a.length⟩] =
        [] := by
      unfold groupSplit
      have hc : ¬ (Tag.equal = Tag.equal ∧ a.length - (a.length - 3) > 3 + 3) := by
        rintro ⟨-, hgt⟩
        omega
      rw [if_neg ?_]
      · rfl
      · simpa using hc
    rw [h1, h2, h3]

theorem unifiedDiff_self (a : List Line) (ff tf : List Char) : unifiedDiff a a ff tf 3 = [] := by
  unfold unifiedDiff
  rw [groupedOpcodes_self]

/-- C5: when the proposed snippet equals the original exactly and no
hint range is given, the computed proposed file is the original
unchanged, and the diff text of open_diff is the no-differences
sentinel rather than an empty diff. -/
theorem identityNoDifferences (original filename : List Char) :
    computeProposedFile (splitKeepEnds original) original none = splitKeepEnds original ∧
      openDiffText original original none filename = "(No differences)\n".toList := by
  have hc : computeProposedFile (splitKeepEnds original) original none =
      splitKeepEnds original := by
    rw [computeProposedFile_none_red]
    have hn : ¬ (splitKeepEnds original).length * 20 < (splitKeepEnds original).length * 17 := by
      omega
    rw [if_neg hn]
  refine ⟨hc, ?_⟩
  have hred : openDiffText original original none filename =
      (if (unifiedDiff (splitKeepEnds original)
            (computeProposedFile (splitKeepEnds original) original none)
            ("a/".toList ++ filename) ("b/".toList ++ filename) 3).isEmpty then
        "(No differences)\n".toList
      else
        joinLines (unifiedDiff (splitKeepEnds original)
          (computeProposedFile (splitKeepEnds original) original none)
          ("a/".toList ++ filename) ("b/".toList ++ filename) 3)) := rfl
  rw [hred, hc, unifiedDiff_self]
  rfl

theorem startsDefKw_of_blank (l : Line) (h : isBlankLine l = true) :
    startsDefKw (lstrip l) = false := by
  have hnil : lstrip l = [] := by
    unfold lstrip
    rw [List.dropWhile_eq_nil_iff]
    intro x hx
    exact List.all_eq_true.mp h x hx
  rw [hnil]
  rfl

theorem getD_drop {β : Type} (d : β) : ∀ (m : Nat) (l : List β) (k : Nat),
    (l.drop m).getD k d = l.getD (m + k) d := by
  intro m
  induction m with
  | zero => intro l k; simp
  | succ m ih =>
    intro l k
    cases l with
    | nil => simp
    | cons x xs =>
      rw [List.drop_succ_cons, ih xs k]
      have : m + 1 + k = (m + k) + 1 := by omega
      rw [this, List.getD_cons_succ]

theorem findDefStart_none (name : Line) : ∀ (L : List Line),
    (∀ l ∈ L, matchesNamedDef (lstrip l) name = false) →
    ∀ i, findDefStart name L i = none := by
  intro L
  induction L with
  | nil => intro _ i; rfl
  | cons l rest ih =>
    intro h i
    have hl := h l (List.mem_cons_self l rest)
    simp only [findDefStart, hl, Bool.false_eq_true, if_false]
    exact ih (fun l2 hl2 => h l2 (List.mem_cons_of_mem l hl2)) (i + 1)

theorem findDefStart_first (name : Line) : ∀ (L : List Line) (s : Nat),
    s < L.length →
    matchesNamedDef (lstrip (L.getD s [])) name = true →
    (∀ k < s, matchesNamedDef (lstrip (L.getD k [])) name = false) →
    ∀ i, findDefStart name L i = some (i + s, indentOf (L.getD s [])) := by
  intro L
  induction L with
  | nil => intro s hs; simp at hs
  | cons l rest ih =>
    intro s hs hmatch hfirst i
    cases s with
    | zero =>
      simp only [List.getD_cons_zero] at hmatch
      simp [findDefStart, hmatch]
    | succ s2 =>
      have h0 : matchesNamedDef (lstrip l) name = false := by
        have := hfirst 0 (Nat.succ_pos s2)
        simpa using this
      simp only [findDefStart, h0, Bool.false_eq_true, if_false]
      have hs2 : s2 < rest.length := by simpa using hs
      have hm2 : matchesNamedDef (lstrip (rest.getD s2 [])) name = true := by
        simpa using hmatch
      have hf2 : ∀ k < s2, matchesNamedDef (lstrip (rest.getD k [])) name = false := by
        intro k hk
        have := hfirst (k + 1) (by omega)
        simpa using this
      rw [ih s2 hs2 hm2 hf2 (i + 1)]
      have harith : i + 1 + s2 = i + (s2 + 1) := by omega
      rw [harith, List.getD_cons_succ]

theorem findDefEnd_spec (d : Nat) : ∀ (L : List Line) (i n : Nat),
    (findDefEnd d L i n = n ∧
        ∀ k < L.length, ¬ (indentOf (L.getD k []) ≤ d ∧
          startsDefKw (lstrip (L.getD k [])) = true)) ∨
      ∃ k, k < L.length ∧
        (indentOf (L.getD k []) ≤ d ∧ startsDefKw (lstrip (L.getD k [])) = true) ∧
        (∀ k2 < k, ¬ (indentOf (L.getD k2 []) ≤ d ∧
          startsDefKw (lstrip (L.getD k2 [])) = true)) ∧
        findDefEnd d L i n = i + k := by
  intro L
  induction L with
  | nil =>
    intro i n
    exact Or.inl ⟨rfl, fun k hk => absurd hk (by simp)⟩
  | cons l rest ih =>
    intro i n
    by_cases hb : isBlankLine l
    · have hnotb : ¬ (indentOf l ≤ d ∧ startsDefKw (lstrip l) = true) := by
        rintro ⟨-, hkw⟩
        rw [startsDefKw_of_blank l hb] at hkw
        exact Bool.false_ne_true hkw
      have hred : findDefEnd d (l :: rest) i n = findDefEnd d rest (i + 1) n := by
        simp only [findDefEnd, hb, if_true]
      rcases ih (i + 1) n with ⟨h1, h2⟩ | ⟨k, hk, hbd, hfirst, he⟩
      · refine Or.inl ⟨by rw [hred, h1], ?_⟩
        intro k hk
        cases k with
        | zero => simpa using hnotb
        | succ k2 =>
          have := h2 k2 (by simpa using hk)
          simpa using this
      · refine Or.inr ⟨k + 1, by simpa using hk, by simpa using hbd, ?_, ?_⟩
        · intro k2 hk2
          cases k2 with
          | zero => simpa using hnotb
          | succ k3 =>
            have := hfirst k3 (by omega)
            simpa using this
        · rw [hred, he]
          omega
    · by_cases hc : indentOf l ≤ d ∧ startsDefKw (lstrip l) = true
      · refine Or.inr ⟨0, by simp, by simpa using hc, fun k2 hk2 => absurd hk2 (by simp), ?_⟩
        have : findDefEnd d (l :: rest) i n = i := by
          simp only [findDefEnd, hb, Bool.false_eq_true, if_false]
          rw [if_pos (by simp [hc.1, hc.2])]
        rw [this]
        omega
      · have hred : findDefEnd d (l :: rest) i n = findDefEnd d rest (i + 1) n := by
          simp only [findDefEnd, hb, Bool.false_eq_true, if_false]
          rw [if_neg ?_]
          simp only [Bool.and_eq_true, decide_eq_true_eq, not_and]
          intro hle hkw
          exact hc ⟨hle, hkw⟩
        rcases ih (i + 1) n with ⟨h1, h2⟩ | ⟨k, hk, hbd, hfirst, he⟩
        · refine Or.inl ⟨by rw [hred, h1], ?_⟩
          intro k hk
          cases k with
          | zero => simpa using hc
          | succ k2 =>
            have := h2 k2 (by simpa using hk)
            simpa using this
        · refine Or.inr ⟨k + 1, by simpa using hk, by simpa using hbd, ?_, ?_⟩
          · intro k2 hk2
            cases k2 with
            | zero => simpa using hc
            | succ k3 =>
              have := hfirst k3 (by omega)
              simpa using this
          · rw [hred, he]
            omega

/-- C8: region detection behaves as specified: it returns none when
the snippet names no definition or when no line of the original names
it; otherwise the region starts at the first line naming the
definition, and ends at the first later line whose indentation is at
most the definition's and which itself starts a new definition, or at
the end of file when no such line exists. -/
theorem findSnippetRegionSpec (original snippet : List Char) :
    (defNameOf snippet = none → findSnippetRegion original snippet = none) ∧
      (∀ name, defNameOf snippet = some name →
        (∀ l ∈ splitLines original, matchesNamedDef (lstrip l) name = false) →
        findSnippetRegion original snippet = none) ∧
      (∀ name s, defNameOf snippet = some name →
        s < (splitLines original).length →
        matchesNamedDef (lstrip ((splitLines original).getD s [])) name = true →
        (∀ k < s, matchesNamedDef (lstrip ((splitLines original).getD k [])) name = false) →
        ∃ e, findSnippetRegion original snippet = some (s, e) ∧
          ((e = (splitLines original).length ∧
              ∀ k, s < k → k < (splitLines original).length →
                ¬ (indentOf ((splitLines original).getD k []) ≤
                      indentOf ((splitLines original).getD s []) ∧
                    startsDefKw (lstrip ((splitLines original).getD k [])) = true)) ∨
            (e < (splitLines original).length ∧
              (indentOf ((splitLines original).getD e []) ≤
                  indentOf ((splitLines original).getD s []) ∧
                startsDefKw (lstrip ((splitLines original).getD e [])) = true) ∧
              ∀ k, s < k → k < e →
                ¬ (indentOf ((splitLines original).getD k []) ≤
                      indentOf ((splitLines original).getD s []) ∧
                    startsDefKw (lstrip ((splitLines original).getD k [])) = true)))) := by
  refine ⟨?_, ?_, ?_⟩
  · intro h
    unfold findSnippetRegion
    rw [h]
  · intro name hname h
    unfold findSnippetRegion
    simp only [hname]
    rw [findDefStart_none name (splitLines original) h 0]
  · intro name s hname hs hmatch hfirst
    unfold findSnippetRegion
    simp only [hname]
    rw [findDefStart_first name (splitLines original) s hs hmatch hfirst 0]
    have hzero : 0 + s = s := by omega
    rw [hzero]
    refine ⟨findDefEnd (indentOf ((splitLines original).getD s []))
      ((splitLines original).drop (s + 1)) (s + 1) (splitLines original).length, rfl, ?_⟩
    rcases findDefEnd_spec (indentOf ((splitLines original).getD s []))
        ((splitLines original).drop (s + 1)) (s + 1) (splitLines original).length with
      ⟨h1, h2⟩ | ⟨k, hk, hbd, hfst, he⟩
    · refine Or.inl ⟨h1, ?_⟩
      intro k hks hklen
      have hbound : k - (s + 1) < ((splitLines original).drop (s + 1)).length := by
        rw [List.length_drop]
        omega
      have := h2 (k - (s + 1)) hbound
      rw [getD_drop [] (s + 1) (splitLines original) (k - (s + 1))] at this
      have harith : s + 1 + (k - (s + 1)) = k := by omega
      rw [harith] at this
      exact this
    · rw [List.length_drop] at hk
      rw [getD_drop [] (s + 1) (splitLines original) k] at hbd
      refine Or.inr ⟨?_, ?_, ?_⟩
      · rw [he]
        omega
      · rw [he]
        exact hbd
      · intro k2 hk2s hk2e
        rw [he] at hk2e
        have hbound : k2 - (s + 1) < k := by omega
        have := hfst (k2 - (s + 1)) hbound
        rw [getD_drop [] (s + 1) (splitLines original) (k2 - (s + 1))] at this
        have harith : s + 1 + (k2 - (s + 1)) = k2 := by omega
        rw [harith] at this
        exact this

theorem findSnippetRegionSpecWitness :
    defNameOf "def g():\n".toList = some ['g'] ∧
      (∃ e, findSnippetRegion "def g():\nx = 1\n".toList "def g():\n".toList = some (0, e) ∧
        ((e = (splitLines "def g():\nx = 1\n".toList).length ∧
            ∀ k, 0 < k → k < (splitLines "def g():\nx = 1\n".toList).length →
              ¬ (indentOf ((splitLines "def g():\nx = 1\n".toList).getD k []) ≤
                    indentOf ((splitLines "def g():\nx = 1\n".toList).getD 0 []) ∧
                  startsDefKw (lstrip ((splitLines "def g():\nx = 1\n".toList).getD k [])) =
                    true)) ∨
          (e < (splitLines "def g():\nx = 1\n".toList).length ∧
            (indentOf ((splitLines "def g():\nx = 1\n".toList).getD e []) ≤
                indentOf ((splitLines "def g():\nx = 1\n".toList).getD 0 []) ∧
              startsDefKw (lstrip ((splitLines "def g():\nx = 1\n".toList).getD e [])) = true) ∧
            ∀ k, 0 < k → k < e →
              ¬ (indentOf ((splitLines "def g():\nx = 1\n".toList).getD k []) ≤
                    indentOf ((splitLines "def g():\nx = 1\n".toList).getD 0 []) ∧
                  startsDefKw (lstrip ((splitLines "def g():\nx = 1\n".toList).getD k [])) =
                    true)))) :=
  ⟨by decide,
    (findSnippetRegionSpec "def g():\nx = 1\n".toList "def g():\n".toList).2.2 ['g'] 0
      (by decide) (by decide) (by decide) (fun k hk => absurd hk (Nat.not_lt_zero k))⟩

section ChainFacts

variable {α : Type} [DecidableEq α]

theorem chainedIn_mono {alo ahi blo bhi alo2 blo2 : Nat} {bl : List (Nat × Nat × Nat)}
    (h : ChainedIn alo2 ahi blo2 bhi bl) (ha : alo ≤ alo2) (hb : blo ≤ blo2) :
    ChainedIn alo ahi blo bhi bl := by
  cases h with
  | nil => exact ChainedIn.nil
  | cons hai hae hbj hbe hrest =>
    exact ChainedIn.cons (le_trans ha hai) hae (le_trans hb hbj) hbe hrest

theorem chainedIn_append {m mj ahi bhi : Nat} {R : List (Nat × Nat × Nat)}
    (hR : ChainedIn m ahi mj bhi R) (hm : m ≤ ahi) (hmj : mj ≤ bhi) :
    ∀ {L : List (Nat × Nat × Nat)} {alo blo : Nat},
      ChainedIn alo m blo mj L → alo ≤ m → blo ≤ mj →
      ChainedIn alo ahi blo bhi (L ++ R) := by
  intro L
  induction L with
  | nil =>
    intro alo blo hL ham hbm
    exact chainedIn_mono hR ham hbm
  | cons blk rest ih =>
    intro alo blo hL ham hbm
    cases hL with
    | cons hai hae hbj hbe hrest =>
      exact ChainedIn.cons hai (le_trans hae hm) hbj (le_trans hbe hmj) (ih hrest hae hbe)

theorem mbAux_chained (a b : List α) : ∀ (fuel alo ahi blo bhi : Nat),
    ChainedIn alo ahi blo bhi (mbAux a b fuel alo ahi blo bhi) := by
  intro fuel
  induction fuel with
  | zero => intro alo ahi blo bhi; exact ChainedIn.nil
  | succ f ih =>
    intro alo ahi blo bhi
    by_cases hk : (flm a b alo ahi blo bhi).2.2 = 0
    · simp only [mbAux]
      rw [if_pos hk]
      exact ChainedIn.nil
    · simp only [mbAux]
      rw [if_neg hk]
      obtain ⟨h1, h2, h3, h4⟩ := flm_bounds a b alo ahi blo bhi hk
      refine chainedIn_append ?_ (by omega) (by omega) (ih alo _ blo _) h1 h3
      exact ChainedIn.cons (le_refl _) h2 (le_refl _) h4 (ih _ ahi _ bhi)

theorem naAux_chained : ∀ (bl : List (Nat × Nat × Nat)) (i1 j1 k1 alo blo ahi bhi : Nat),
    alo ≤ i1 → blo ≤ j1 → i1 + k1 ≤ ahi → j1 + k1 ≤ bhi →
    ChainedIn (i1 + k1) ahi (j1 + k1) bhi bl →
    ChainedIn alo ahi blo bhi (naAux (i1, j1, k1) bl ++ [(ahi, bhi, 0)]) := by
  intro bl
  induction bl with
  | nil =>
    intro i1 j1 k1 alo blo ahi bhi h1 h2 h3 h4 hch
    by_cases hk : k1 = 0
    · simp only [naAux]
      rw [if_pos hk]
      exact ChainedIn.cons (by omega) (by omega) (by omega) (by omega) ChainedIn.nil
    · simp only [naAux]
      rw [if_neg hk]
      exact ChainedIn.cons h1 h3 h2 h4
        (ChainedIn.cons h3 (by omega) h4 (by omega) ChainedIn.nil)
  | cons blk rest ih =>
    intro i1 j1 k1 alo blo ahi bhi h1 h2 h3 h4 hch
    cases hch with
    | @cons _ _ _ _ ai bj sz _ hai hae hbj hbe hrest =>
      by_cases hadj : i1 + k1 = ai ∧ j1 + k1 = bj
      · have hcond : ((i1, j1, k1).1 + (i1, j1, k1).2.2 = (ai, bj, sz).1 &&
            (i1, j1, k1).2.1 + (i1, j1, k1).2.2 = (ai, bj, sz).2.1) = true := by
          simp [hadj.1, hadj.2]
        simp only [naAux, hcond, if_true]
        have harith : i1 + (k1 + sz) = ai + sz := by omega
        have harith2 : j1 + (k1 + sz) = bj + sz := by omega
        refine ih i1 j1 (k1 + sz) alo blo ahi bhi h1 h2 (by omega) (by omega) ?_
        rw [harith, harith2]
        exact hrest
      · have hcond : ((i1, j1, k1).1 + (i1, j1, k1).2.2 = (ai, bj, sz).1 &&
            (i1, j1, k1).2.1 + (i1, j1, k1).2.2 = (ai, bj, sz).2.1) = false := by
          simp only [Bool.and_eq_false_iff, decide_eq_false_iff_not]
          by_cases hx : i1 + k1 = ai
          · exact Or.inr (fun hy => hadj ⟨hx, hy⟩)
          · exact Or.inl hx
        simp only [naAux, hcond, Bool.false_eq_true, if_false]
        rw [List.append_assoc]
        by_cases hk : k1 = 0
        · rw [if_pos hk]
          rw [List.nil_append]
          exact ih ai bj sz alo blo ahi bhi (by omega) (by omega) hae hbe hrest
        · rw [if_neg hk]
          rw [List.singleton_append]
          exact ChainedIn.cons h1 h3 h2 h4
            (ih ai bj sz (i1 + k1) (j1 + k1) ahi bhi hai hbj hae hbe hrest)

theorem matchingBlocks_chained (a b : List α) :
    ChainedIn 0 a.length 0 b.length (matchingBlocks a b) := by
  unfold matchingBlocks
  refine naAux_chained _ 0 0 0 0 0 a.length b.length (le_refl 0) (le_refl 0)
    (Nat.zero_le _) (Nat.zero_le _) ?_
  have := mbAux_chained a b (a.length + 1) 0 a.length 0 b.length
  simpa using this

theorem opcodesAux_sorted : ∀ (bl : List (Nat × Nat × Nat)) (i j ahi bhi : Nat),
    ChainedIn i ahi j bhi bl →
    (∀ op ∈ opcodesAux i j bl, i ≤ op.i2) ∧
      (opcodesAux i j bl).Pairwise (fun x y => x.i2 ≤ y.i2) := by
  intro bl
  induction bl with
  | nil =>
    intro i j ahi bhi _
    exact ⟨fun op hop => absurd hop (List.not_mem_nil op), List.Pairwise.nil⟩
  | cons blk rest ih =>
    intro i j ahi bhi h
    cases h with
    | @cons _ _ _ _ ai bj sz _ hai hae hbj hbe hrest =>
      obtain ⟨ihmem, ihpw⟩ := ih (ai + sz) (bj + sz) ahi bhi hrest
      have hT : ∀ op ∈ (if ((ai, bj, sz) : Nat × Nat × Nat).1 > i ∧
            ((ai, bj, sz) : Nat × Nat × Nat).2.1 > j then
            [(⟨Tag.replace, i, ai, j, bj⟩ : Opcode)]
          else []), True := fun _ _ => trivial
      clear hT
      show (∀ op ∈ opcodesAux i j ((ai, bj, sz) :: rest), i ≤ op.i2) ∧ _
      have hopc : opcodesAux i j ((ai, bj, sz) :: rest) =
          (if i < ai && j < bj then [⟨Tag.replace, i, ai, j, bj⟩]
            else if i < ai then [⟨Tag.delete, i, ai, j, bj⟩]
            else if j < bj then [⟨Tag.insert, i, ai, j, bj⟩]
            else []) ++
          (if sz ≠ 0 then [⟨Tag.equal, ai, ai + sz, bj, bj + sz⟩] else []) ++
          opcodesAux (ai + sz) (bj + sz) rest := rfl
      rw [hopc]
      have hTmem : ∀ op ∈ (if i < ai && j < bj then
            [(⟨Tag.replace, i, ai, j, bj⟩ : Opcode)]
          else if i < ai then [⟨Tag.delete, i, ai, j, bj⟩]
          else if j < bj then [⟨Tag.insert, i, ai, j, bj⟩]
          else []), op.i2 = ai ∧ op.i1 = i := by
        intro op hop
        split at hop
        · simp at hop
          subst hop
          exact ⟨rfl, rfl⟩
        · split at hop
          · simp at hop
            subst hop
            exact ⟨rfl, rfl⟩
          · split at hop
            · simp at hop
              subst hop
              exact ⟨rfl, rfl⟩
            · simp at hop
      have hEmem : ∀ op ∈ (if sz ≠ 0 then
            [(⟨Tag.equal, ai, ai + sz, bj, bj + sz⟩ : Opcode)] else []),
          op.i2 = ai + sz := by
        intro op hop
        split at hop
        · simp at hop
          subst hop
          rfl
        · simp at hop
      constructor
      · intro op hop
        rcases List.mem_append.mp hop with hop2 | hop2
        · rcases List.mem_append.mp hop2 with hop3 | hop3
          · rw [(hTmem op hop3).1]
            exact hai
          · rw [hEmem op hop3]
            omega
        · exact le_trans (by omega) (ihmem op hop2)
      · refine List.pairwise_append.mpr ⟨?_, ihpw, ?_⟩
        · refine List.pairwise_append.mpr ⟨?_, ?_, ?_⟩
          · split
            · simp
            · split
              · simp
              · split
                · simp
                · simp
          · split
            · simp
            · simp
          · intro x hx y hy
            rw [(hTmem x hx).1, hEmem y hy]
            omega
        · intro x hx y hy
          rcases List.mem_append.mp hx with hx2 | hx2
          · rw [(hTmem x hx2).1]
            exact le_trans (by omega) (ihmem y hy)
          · rw [hEmem x hx2]
            exact ihmem y hy

theorem getOpcodes_sorted (a b : List α) :
    (getOpcodes a b).Pairwise (fun x y => x.i2 ≤ y.i2) :=
  (opcodesAux_sorted (matchingBlocks a b) 0 0 a.length b.length
    (matchingBlocks_chained a b)).2

theorem foldl_last_eq_max : ∀ (l : List Opcode) (acc : Nat),
    (∀ op ∈ l, acc ≤ op.i2) → l.Pairwise (fun x y => x.i2 ≤ y.i2) →
    l.foldl (fun acc2 op => if op.tag ≠ Tag.delete then op.i2 else acc2) acc =
      l.foldl (fun acc2 op => if op.tag ≠ Tag.delete then max acc2 op.i2 else acc2) acc := by
  intro l
  induction l with
  | nil => intro acc _ _; rfl
  | cons op rest ih =>
    intro acc hle hpw
    rw [List.foldl_cons, List.foldl_cons]
    obtain ⟨hhead, hpw2⟩ := List.pairwise_cons.mp hpw
    by_cases ht : op.tag = Tag.delete
    · have e1 : (if op.tag ≠ Tag.delete then op.i2 else acc) = acc := by
        rw [if_neg]
        simp [ht]
      have e2 : (if op.tag ≠ Tag.delete then max acc op.i2 else acc) = acc := by
        rw [if_neg]
        simp [ht]
      rw [e1, e2]
      exact ih acc (fun o ho => hle o (List.mem_cons_of_mem op ho)) hpw2
    · have e1 : (if op.tag ≠ Tag.delete then op.i2 else acc) = op.i2 := if_pos ht
      have e2 : (if op.tag ≠ Tag.delete then max acc op.i2 else acc) = max acc op.i2 :=
        if_pos ht
      have hmax : max acc op.i2 = op.i2 := by
        have := hle op (List.mem_cons_self op rest)
        omega
      rw [e1, e2, hmax]
      exact ih op.i2 hhead hpw2

theorem lastNonDeleteEnd_eq_highest (a b : List α) :
    lastNonDeleteEnd (getOpcodes a b) = highestNonDeleteEnd (getOpcodes a b) := by
  unfold lastNonDeleteEnd highestNonDeleteEnd
  exact foldl_last_eq_max (getOpcodes a b) 0 (fun op _ => Nat.zero_le _)
    (getOpcodes_sorted a b)

end ChainFacts

/-- C1: the merge processes the opcodes in order with the stated
policy: the code realises exactly the specification side
mergeRegionSpec, whose delete rule keeps a block exactly when its
start is at or after the highest original index covered by any
non-delete opcode; moreover a trailing truncation is restored and an
interior deletion is dropped, shown on the two witness scenarios. -/
theorem mergePolicyRefinement :
    (∀ origLines snippetLines : List Line,
        mergeSnippet origLines snippetLines = mergeRegionSpec origLines snippetLines) ∧
      mergeSnippet [['a', '\n'], ['b', '\n']] [['a', '\n']] = [['a', '\n'], ['b', '\n']] ∧
      mergeSnippet [['a'], ['b'], ['c']] [['a'], ['c'], ['d']] = [['a'], ['c'], ['d']] := by
  refine ⟨?_, by decide, by decide⟩
  intro o s
  simp only [mergeSnippet, mergeRegionSpec]
  rw [lastNonDeleteEnd_eq_highest]

end DiffView
